import Mathlib

/-
Verification of the PyREx core pipeline against its specification.

Shallow embedding of:
  src/pyrex/custom/irex/antenna.py  (IREXAntennaSystem: trigger, front_end,
                                     make_envelope, all_waveforms)
  src/pyrex/kernel.py               (EventKernel.event per-path processing)
  src/pyrex/internal_functions.py   (normalize)

Machine floats are embedded as rationals (for the exact, decidable parts:
trigger scanning, string dispatch, cache bookkeeping) or as real numbers
(for the geometric and spectral parts: normalize, arccos, Hilbert envelope).
Python while loops are embedded as structurally recursive functions taking
an explicit iteration budget (fuel); the top-level entry points pass a
budget provably at least as large as the number of iterations the Python
loop performs, so the embedded functions compute exactly the Python result.
-/

namespace Pyrex

/-!  Trigger evaluator: IREXAntennaSystem.trigger (antenna.py lines 204-216).

Python source:
    def trigger(self, signal):
        imax = len(signal.times)
        i = 0
        while i<imax:
            j = i
            while i<imax-1 and signal.values[i]>self.trigger_threshold:
                i += 1
            if i!=j:
                time = signal.times[i]-signal.times[j]
                if time>self.time_over_threshold:
                    return True
            i += 1
        return False

The sample arrays signal.times and signal.values are embedded as functions
on sample indices; imax is the sample count.  Natural subtraction imax - 1
agrees with Python here: for imax = 0 the guard i < imax - 1 is false in
both languages.  -/

/-- Inner while loop of IREXAntennaSystem.trigger: starting at index i,
advance while i < imax - 1 and values i is strictly above the threshold;
return the index where the loop halts.  The first argument after imax is
fuel; any fuel at least (imax - 1) - i computes the exact Python result. -/
def scanAbove (threshold : ℚ) (values : ℕ → ℚ) (imax : ℕ) : ℕ → ℕ → ℕ
  | 0, i => i
  | fuel + 1, i =>
      if i < imax - 1 ∧ values i > threshold then
        scanAbove threshold values imax fuel (i + 1)
      else i

/-- Outer while loop of IREXAntennaSystem.trigger, starting at index i.
Each iteration runs the inner scan (with inner fuel imax, always enough),
checks the run it crossed, and either returns true or continues past it.
Fuel zero returns false, which is also what the Python loop returns once
i reaches imax; trigger passes fuel imax + 1, enough for every iteration
the Python loop performs. -/
def triggerFrom (threshold tot : ℚ) (times values : ℕ → ℚ) (imax : ℕ) :
    ℕ → ℕ → Bool
  | 0, _ => false
  | fuel + 1, i =>
      if i < imax then
        let i2 := scanAbove threshold values imax imax i
        if i2 ≠ i ∧ times i2 - times i > tot then true
        else triggerFrom threshold tot times values imax fuel (i2 + 1)
      else false

/-- IREXAntennaSystem.trigger: scan the waveform once in time order and
report whether some above-threshold run satisfies the duration check. -/
def trigger (threshold tot : ℚ) (times values : ℕ → ℚ) (imax : ℕ) : Bool :=
  triggerFrom threshold tot times values imax (imax + 1) 0

theorem scanAbove_halt {threshold : ℚ} {values : ℕ → ℚ} {imax i : ℕ}
    (h : ¬(i < imax - 1 ∧ values i > threshold)) (fuel : ℕ) :
    scanAbove threshold values imax fuel i = i := by
  cases fuel <;> simp [scanAbove, h]

theorem scanAbove_run {threshold : ℚ} {values : ℕ → ℚ} {imax stop : ℕ}
    (hstop : ¬(stop < imax - 1 ∧ values stop > threshold)) :
    ∀ fuel j, j ≤ stop → stop - j ≤ fuel →
      (∀ i, j ≤ i → i < stop → i < imax - 1 ∧ values i > threshold) →
      scanAbove threshold values imax fuel j = stop := by
  intro fuel
  induction fuel with
  | zero =>
      intro j hj hf _
      have : j = stop := by omega
      subst this; rfl
  | succ fuel ih =>
      intro j hj hf hrun
      rcases eq_or_lt_of_le hj with rfl | hlt
      · exact scanAbove_halt hstop _
      · have hcond := hrun j le_rfl hlt
        rw [scanAbove, if_pos hcond]
        exact ih (j + 1) hlt (by omega) (fun i hi1 hi2 => hrun i (by omega) hi2)

theorem triggerFrom_skip {threshold tot : ℚ} {times values : ℕ → ℚ}
    {imax i fuel : ℕ} (hi : i < imax)
    (h : ¬(i < imax - 1 ∧ values i > threshold)) :
    triggerFrom threshold tot times values imax (fuel + 1) i =
      triggerFrom threshold tot times values imax fuel (i + 1) := by
  rw [triggerFrom, if_pos hi]
  simp [scanAbove_halt h]

theorem triggerFrom_tail_false {threshold tot : ℚ} {times values : ℕ → ℚ}
    {imax : ℕ} :
    ∀ fuel i,
      (∀ t, i ≤ t → t < imax → ¬(t < imax - 1 ∧ values t > threshold)) →
      triggerFrom threshold tot times values imax fuel i = false := by
  intro fuel
  induction fuel with
  | zero => intro i _; rfl
  | succ fuel ih =>
      intro i hbelow
      by_cases hi : i < imax
      · rw [triggerFrom_skip hi (hbelow i le_rfl hi)]
        exact ih (i + 1) (fun t ht1 ht2 => hbelow t (by omega) ht2)
      · rw [triggerFrom, if_neg hi]

theorem triggerFrom_walk {threshold tot : ℚ} {times values : ℕ → ℚ}
    {imax : ℕ} :
    ∀ (d fuel i j : ℕ), i + d = j → j ≤ imax →
      (∀ t, i ≤ t → t < j → values t ≤ threshold) →
      triggerFrom threshold tot times values imax (fuel + d) i =
        triggerFrom threshold tot times values imax fuel j := by
  intro d
  induction d with
  | zero => intro fuel i j hij _ _; simp_all
  | succ d ih =>
      intro fuel i j hij hjmax hbelow
      have hi : i < imax := by omega
      have hvi : values i ≤ threshold := hbelow i le_rfl (by omega)
      have : fuel + (d + 1) = (fuel + d) + 1 := by omega
      rw [this, triggerFrom_skip hi (by simp [not_lt.2 hvi])]
      exact ih fuel (i + 1) j (by omega) hjmax
        (fun t ht1 ht2 => hbelow t (by omega) ht2)

/-- Characterization of trigger on a waveform with a single above-threshold
run occupying indices j through m: every sample before j and after m is at
or below the threshold, every sample from j to m is strictly above it.
The scan halts at stop = min (m + 1) (imax - 1): the first at-or-below
sample after the run, or the final index when the run reaches it.  The
waveform triggers iff the run has a sample strictly before index imax - 1
and times stop - times j strictly exceeds the time-over-threshold. -/
theorem trigger_single_run {threshold tot : ℚ} {times values : ℕ → ℚ}
    {imax j m : ℕ} (hjm : j ≤ m) (hm : m ≤ imax - 1) (h1 : 1 ≤ imax)
    (hbefore : ∀ i, i < j → values i ≤ threshold)
    (hrun : ∀ i, j ≤ i → i ≤ m → values i > threshold)
    (hafter : ∀ i, m < i → i < imax → values i ≤ threshold) :
    trigger threshold tot times values imax =
      decide (j < imax - 1 ∧
        times (min (m + 1) (imax - 1)) - times j > tot) := by
  have hj : j ≤ imax - 1 := le_trans hjm hm
  have hwalk :
      trigger threshold tot times values imax =
        triggerFrom threshold tot times values imax (imax + 1 - j) j := by
    have h := @triggerFrom_walk threshold tot times values imax
      j (imax + 1 - j) 0 j (by omega) (by omega)
      (fun t _ ht2 => hbefore t ht2)
    have hfe : imax + 1 - j + j = imax + 1 := by omega
    rw [trigger]
    rw [hfe] at h
    exact h
  rcases Nat.lt_or_ge j (imax - 1) with hjlt | hjge
  · -- the run starts strictly before the final index
    set stop := min (m + 1) (imax - 1) with hstopdef
    have hjstop : j < stop := by omega
    have hstople : stop ≤ imax - 1 := by omega
    have hstop : ¬(stop < imax - 1 ∧ values stop > threshold) := by
      rcases Nat.lt_or_ge (m + 1) (imax - 1) with hcase | hcase
      · have hstopeq : stop = m + 1 := by omega
        have := hafter (m + 1) (by omega) (by omega)
        rw [hstopeq]
        simp [not_lt.2 this]
      · have hstopeq : stop = imax - 1 := by omega
        rw [hstopeq]; simp
    have hscan : scanAbove threshold values imax imax j = stop :=
      scanAbove_run hstop imax j (le_of_lt hjstop) (by omega)
        (fun i hi1 hi2 => ⟨by omega, hrun i hi1 (by omega)⟩)
    have hfuel : imax + 1 - j = (imax - j) + 1 := by omega
    rw [hwalk, hfuel, triggerFrom, if_pos (by omega : j < imax)]
    simp only [hscan]
    by_cases hdur : times stop - times j > tot
    · rw [if_pos ⟨by omega, hdur⟩]
      simp [hjlt, hdur]
    · rw [if_neg (by
        intro hc
        exact hdur hc.2)]
      have htail :
          triggerFrom threshold tot times values imax (imax - j) (stop + 1) =
            false := by
        apply triggerFrom_tail_false
        intro t ht1 ht2
        rcases Nat.lt_or_ge (m + 1) (imax - 1) with hcase | hcase
        · have : m < t := by omega
          simp [not_lt.2 (hafter t this ht2)]
        · omega
      rw [htail]
      simp [hdur]
  · -- the run is the single final sample: j = m = imax - 1
    have hje : j = imax - 1 := by omega
    have hfuel : imax + 1 - j = 1 + 1 := by omega
    have hscanj : scanAbove threshold values imax imax j = j :=
      scanAbove_halt (by omega) imax
    rw [hwalk, hfuel, triggerFrom, if_pos (by omega : j < imax)]
    simp only [hscanj]
    rw [if_neg (by simp)]
    have : triggerFrom threshold tot times values imax 1 (j + 1) = false := by
      apply triggerFrom_tail_false
      intro t ht1 ht2
      omega
    rw [this]
    simp [hje]

/-- Sample times 0, 1, 2, 3, ... used by the concrete trigger waveforms. -/
def cexTimes : ℕ → ℚ := fun i => (i : ℚ)

/-- Constant waveform strictly above threshold 0 at every sample: its only
above-threshold run extends to the final sample. -/
def cexValuesAll : ℕ → ℚ := fun _ => 1

/-- Step waveform above threshold 0 at samples 0, 1, 2 and back at 0 from
sample 3 on: a single above-threshold run ending before the final sample,
with elapsed time 2 between its first and last above-threshold sample. -/
def cexValuesStep : ℕ → ℚ := fun i => if i ≤ 2 then 1 else 0

/-- Counterexample to C1 as stated: on the four-sample waveform whose only
above-threshold run (all four samples strictly above threshold 0) extends
to the final sample, trigger reports true (threshold 0, time over
threshold 1, sample times 0, 1, 2, 3), not false as the claim requires. -/
theorem trigger_final_run_cex :
    cexValuesAll 0 > 0 ∧ cexValuesAll 1 > 0 ∧ cexValuesAll 2 > 0 ∧
      cexValuesAll 3 > 0 ∧
      trigger 0 1 cexTimes cexValuesAll 4 = true := by
  norm_num [trigger, triggerFrom, scanAbove, cexTimes, cexValuesAll]

/-- C1, amended: a waveform whose only above-threshold run occupies the
indices from j up to the final sample imax - 1 IS evaluated for duration;
the inner scan halts at the final index, so trigger reports true exactly
when the run starts strictly before the final index and the elapsed time
from the first run sample to the final sample strictly exceeds the
configured time over threshold.  Only a run consisting of the final sample
alone escapes evaluation. -/
theorem trigger_run_to_end (threshold tot : ℚ) (times values : ℕ → ℚ)
    (imax j : ℕ) (h1 : 1 ≤ imax) (hj : j ≤ imax - 1)
    (hbefore : ∀ i, i < j → values i ≤ threshold)
    (hrun : ∀ i, j ≤ i → i ≤ imax - 1 → values i > threshold) :
    trigger threshold tot times values imax =
      decide (j < imax - 1 ∧ times (imax - 1) - times j > tot) := by
  have h := @trigger_single_run threshold tot times values imax j (imax - 1)
    hj le_rfl h1 hbefore hrun (fun i hi1 hi2 => absurd hi2 (by omega))
  rw [h, Nat.min_eq_right (by omega)]

/-- Witness for trigger_run_to_end at the concrete C1 waveform: the run
covering samples 0 through 3 is measured and fires the trigger. -/
theorem trigger_run_to_end_witness :
    trigger 0 1 cexTimes cexValuesAll 4 = true := by
  have h := trigger_run_to_end 0 1 cexTimes cexValuesAll 4 0
    (by norm_num) (by norm_num)
    (fun i hi => absurd hi (by omega))
    (fun i _ _ => by norm_num [cexValuesAll])
  rw [h]; norm_num [cexTimes]

/-- Counterexample to C2 as stated: threshold 0, minimum time over
threshold 2, waveform with a single above-threshold run at samples 0, 1, 2
whose elapsed time between its first and last above-threshold sample is
exactly 2 (sample times 0, 1, 2, 3).  The claim requires false, but
trigger reports true: the scan measures the run up to the first
at-or-below sample after it, times 3 - times 0 = 3 > 2. -/
theorem trigger_exact_duration_cex :
    cexValuesStep 0 > 0 ∧ cexValuesStep 1 > 0 ∧ cexValuesStep 2 > 0 ∧
      cexValuesStep 3 ≤ 0 ∧ cexTimes 2 - cexTimes 0 = 2 ∧
      trigger 0 2 cexTimes cexValuesStep 4 = true := by
  norm_num [trigger, triggerFrom, scanAbove, cexTimes, cexValuesStep]

/-- C2, amended: for a single above-threshold run occupying indices j
through m that ends strictly before the final sample, the duration the
code measures is times (m + 1) - times j, the elapsed time from the first
run sample to the first at-or-below-threshold sample after the run, not
the elapsed time to the last above-threshold sample; trigger reports true
exactly when that measured duration strictly exceeds the configured time
over threshold (so equality of the measured duration with it yields
false, but a run whose first-to-last elapsed time equals it can fire). -/
theorem trigger_run_measured_duration (threshold tot : ℚ)
    (times values : ℕ → ℚ) (imax j m : ℕ)
    (hjm : j ≤ m) (hm : m < imax - 1)
    (hbefore : ∀ i, i < j → values i ≤ threshold)
    (hrun : ∀ i, j ≤ i → i ≤ m → values i > threshold)
    (hafter : ∀ i, m < i → i < imax → values i ≤ threshold) :
    trigger threshold tot times values imax =
      decide (times (m + 1) - times j > tot) := by
  have h := @trigger_single_run threshold tot times values imax j m
    hjm (by omega) (by omega) hbefore hrun hafter
  rw [h, Nat.min_eq_left (by omega), decide_eq_decide]
  exact ⟨fun hc => hc.2, fun hc => ⟨by omega, hc⟩⟩

/-- Witness for trigger_run_measured_duration at the concrete C2 waveform:
the run at samples 0 through 2 is measured as times 3 - times 0 = 3,
which strictly exceeds the configured minimum 2, so the trigger fires
even though the first-to-last elapsed time is exactly 2. -/
theorem trigger_run_measured_duration_witness :
    trigger 0 2 cexTimes cexValuesStep 4 = true := by
  have h := trigger_run_measured_duration 0 2 cexTimes cexValuesStep 4 0 2
    (by norm_num) (by norm_num)
    (fun i hi => absurd hi (by omega))
    (fun i hi1 hi2 => by
      simp only [cexValuesStep, if_pos hi2]
      norm_num)
    (fun i hi1 hi2 => by
      simp only [cexValuesStep, if_neg (by omega : ¬ i ≤ 2)]
      norm_num)
  rw [h]; norm_num [cexTimes]

/-!  Envelope detector and front end: IREXAntennaSystem.make_envelope
(antenna.py lines 99-155) and IREXAntennaSystem.front_end (lines 157-164).

The Signal class, the basic analytic envelope model and the PySpice
bindings live in pyrex.signals and pyrex.custom.irex.frontends, which are
not under src: the Signal value-type tag and constructor default are
modelled from the spec (data model section: signals carry a value-type tag;
stages construct fresh signals), and the external capabilities
(Signal.envelope, basic_envelope_model, pyspice availability and the
circuit registry) are collected in an EnvExternal record quantified over
in the theorems. -/

/-- Modelled from the spec: the value-type tag of pyrex.signals.Signal
(voltage, field, power, etc.); a Signal constructed without an explicit
tag carries the undefined default. -/
inductive ValueType where
  | undefined
  | voltage
  | field
  | power
deriving DecidableEq

/-- Modelled from the spec: pyrex.signals.Signal, a sampled waveform with
paired time and amplitude samples and a value-type tag. -/
structure Signal where
  times : List ℝ
  values : List ℝ
  value_type : ValueType

/-- Scan of every suffix of s for pat as a prefix: the contiguous
substring test. -/
def charsContain (pat : List Char) : List Char → Bool
  | [] => pat.isEmpty
  | c :: rest => pat.isPrefixOf (c :: rest) || charsContain pat rest

/-- Python substring containment (the in operator on strings), as used by
the envelope-method dispatch of make_envelope. -/
def containsSub (pat s : String) : Bool := charsContain pat.data s.data

theorem isPrefixOf_append (pat b : List Char) :
    pat.isPrefixOf (pat ++ b) = true := by
  induction pat with
  | nil => simp [List.isPrefixOf]
  | cons c p ih => simp [List.isPrefixOf, ih]

theorem charsContain_append (a pat b : List Char) :
    charsContain pat (a ++ pat ++ b) = true := by
  induction a with
  | nil =>
      cases pat with
      | nil => cases b <;> simp [charsContain]
      | cons c p => simp [charsContain, isPrefixOf_append]
  | cons c a ih =>
      have heq : (c :: a) ++ pat ++ b = c :: (a ++ pat ++ b) := by simp
      rw [heq, charsContain, ih, Bool.or_true]

/-- A string occurs as a substring of any string built around it. -/
theorem containsSub_append (a m b : String) :
    containsSub m (a ++ m ++ b) = true := by
  rw [containsSub, String.data_append, String.data_append]
  exact charsContain_append a.data m.data b.data

def hilbertStr : String := "hilbert"

def analyticStr : String := "analytic"

def basicStr : String := "basic"

def spiceStr : String := "spice"

def simpleStr : String := "simple"

def logAmpStr : String := "log amp"

def logarithmicAmpStr : String := "logarithmic amp"

def logampKey : String := "logamp"

def bridgeKey : String := "bridge"

def rectifierStr : String := "rectifier"

/-- Single-quote character, written by code point to build the literal
error message texts of make_envelope. -/
def squote : String := String.singleton (Char.ofNat 39)

/-- Message of the ValueError raised for an analytic method with an
unsupported qualifier (antenna.py lines 110-111). -/
def onlyBasicMsg : String :=
  "Only basic envelope circuit is modeled " ++ "analytically"

/-- Message of the ValueError raised for the unqualified spice method
(antenna.py lines 118-119). -/
def spiceUnqualifiedMsg : String :=
  "Type of spice circuit to use must be " ++ "specified"

/-- Message of the ValueError raised when no spice circuit matches the
method string (antenna.py lines 141-142). -/
def circuitMsg (method : String) : String :=
  "Circuit " ++ squote ++ method ++ (squote ++ " not implemented")

/-- Message of the ValueError raised when no envelope method matches
(antenna.py lines 154-155). -/
def noMatchMsg (method : String) : String :=
  "No envelope method matching " ++ squote ++ method ++ squote

/-- Errors raised by make_envelope. -/
inductive EnvError where
  | valueError (msg : String)
  | moduleNotFoundError (msg : String)

/-- Observable side effects of the spice branch, in program order:
construction of the ngspice input from the signal copy, and the transient
simulation run on the selected circuit. -/
inductive SpiceEffect where
  | builtSpiceInput
  | ranSimulation (circuit : String)

/-- External collaborators of make_envelope that are not under src: the
Signal envelope property (pyrex.signals), basic_envelope_model and the
pyspice module with its circuit registry (pyrex.custom.irex.frontends).
Modelled from the spec as opaque capabilities quantified over in the
theorems; circuits are identified by their registry key. -/
structure EnvExternal where
  envelope : List ℝ → List ℝ
  basic_envelope_model : Signal → Signal
  pyspice_available : Bool
  modulenotfound_msg : String
  spice_circuit_keys : List String
  spice_output : String → Signal → List ℝ

/-- First matching loop of the spice branch: the first registry key
occurring as a substring of the envelope method (antenna.py lines
125-129). -/
def findCircuitKey (keys : List String) (method : String) : Option String :=
  match keys with
  | [] => none
  | k :: rest => if containsSub k method then some k else findCircuitKey rest method

/-- Circuit matching of the spice branch: registry scan first, then the
manual fallback aliases simple, log amp / logarithmic amp and rectifier
(antenna.py lines 124-138). -/
def matchCircuit (keys : List String) (method : String) : Option String :=
  match findCircuitKey keys method with
  | some c => some c
  | none =>
      if containsSub simpleStr method then some basicStr
      else if containsSub logAmpStr method || containsSub logarithmicAmpStr method then
        some logampKey
      else if containsSub rectifierStr method then some bridgeKey
      else none

/-- IREXAntennaSystem.make_envelope (antenna.py lines 99-155): dispatch on
the envelope_method string by substring containment, in source order
hilbert, analytic, spice.  Returns the produced signal or the raised
error, paired with the trace of spice side effects in the order the
Python code performs them. -/
def make_envelope (ext : EnvExternal) (envelope_method : String)
    (signal : Signal) : Except EnvError Signal × List SpiceEffect :=
  if containsSub hilbertStr envelope_method then
    (Except.ok ⟨signal.times, ext.envelope signal.values, signal.value_type⟩, [])
  else if containsSub analyticStr envelope_method then
    if containsSub basicStr envelope_method || envelope_method == analyticStr then
      (Except.ok (ext.basic_envelope_model signal), [])
    else (Except.error (EnvError.valueError onlyBasicMsg), [])
  else if containsSub spiceStr envelope_method then
    if !ext.pyspice_available then
      (Except.error (EnvError.moduleNotFoundError ext.modulenotfound_msg), [])
    else if envelope_method == spiceStr then
      (Except.error (EnvError.valueError spiceUnqualifiedMsg), [])
    else
      let copy : Signal :=
        ⟨signal.times.map (fun t => t - signal.times.getD 0 0), signal.values,
         ValueType.undefined⟩
      match matchCircuit ext.spice_circuit_keys envelope_method with
      | none =>
          (Except.error (EnvError.valueError (circuitMsg envelope_method)),
           [SpiceEffect.builtSpiceInput])
      | some c =>
          (Except.ok ⟨signal.times, ext.spice_output c copy, signal.value_type⟩,
           [SpiceEffect.builtSpiceInput, SpiceEffect.ranSimulation c])
  else (Except.error (EnvError.valueError (noMatchMsg envelope_method)), [])

/-- numpy clip as called by front_end: np.clip(x, a_min, a_max) computes
minimum(a_max, maximum(x, a_min)). -/
def clip (a_min a_max x : ℝ) : ℝ := min a_max (max x a_min)

/-- Amplify-and-clip stage of IREXAntennaSystem.front_end (antenna.py
lines 160-162): scale each sample by the amplification and clip
symmetrically at the amplifier_clipping bound. -/
def amplified_values (amplification amplifier_clipping : ℝ)
    (values : List ℝ) : List ℝ :=
  values.map (fun v => clip (-amplifier_clipping) amplifier_clipping (v * amplification))

/-- IREXAntennaSystem.front_end (antenna.py lines 157-164): amplify and
clip the input, wrap the result in a fresh Signal (constructed without a
value type, hence tagged undefined), and hand it to make_envelope. -/
def front_end (ext : EnvExternal) (envelope_method : String)
    (amplification amplifier_clipping : ℝ) (signal : Signal) :
    Except EnvError Signal × List SpiceEffect :=
  make_envelope ext envelope_method
    ⟨signal.times,
     amplified_values amplification amplifier_clipping signal.values,
     ValueType.undefined⟩

/-- Concrete instantiation of the external capabilities, used to evaluate
the dispatch logic on concrete inputs: identity envelope and basic model,
pyspice absent, the three-circuit registry. -/
def trivialExt : EnvExternal where
  envelope := fun v => v
  basic_envelope_model := fun s => s
  pyspice_available := false
  modulenotfound_msg := "PySpice module not found"
  spice_circuit_keys := [basicStr, logampKey, bridgeKey]
  spice_output := fun _ s => s.values

/-- C10: for every envelope_method string containing hilbert as a
substring, make_envelope takes the Hilbert branch and raises no error,
regardless of what else the string contains: dispatch is by substring
containment with hilbert checked first. -/
theorem make_envelope_hilbert_precedence (ext : EnvExternal) (m : String)
    (signal : Signal) (h : containsSub hilbertStr m = true) :
    make_envelope ext m signal =
      (Except.ok ⟨signal.times, ext.envelope signal.values, signal.value_type⟩,
       []) := by
  rw [make_envelope, if_pos h]

/-- Method string containing all three family keywords; the hilbert branch
must win. -/
def mixedMethodStr : String := "analytic spice hilbert"

/-- Witness for make_envelope_hilbert_precedence: a method string
containing analytic, spice and hilbert takes the Hilbert branch and
succeeds. -/
theorem make_envelope_hilbert_precedence_witness :
    containsSub analyticStr mixedMethodStr = true ∧
    containsSub spiceStr mixedMethodStr = true ∧
    make_envelope trivialExt mixedMethodStr ⟨[0], [1], ValueType.voltage⟩ =
      (Except.ok ⟨[0], [1], ValueType.voltage⟩, []) := by
  refine ⟨by decide, by decide, ?_⟩
  have h := make_envelope_hilbert_precedence trivialExt mixedMethodStr
    ⟨[0], [1], ValueType.voltage⟩ (by decide)
  rw [h]
  rfl

/-- Signal used by the concrete dispatch evaluations. -/
def sampleSig : Signal := ⟨[0], [1], ValueType.voltage⟩

/-- Spice-family method string that is not exactly spice. -/
def basicSpiceStr : String := "basic spice"

/-- C6: with envelope_method exactly the string spice (no circuit
qualifier), make_envelope raises a configuration error with an empty
spice side-effect trace, so no simulator input is constructed and no
simulation is run; and whenever the spice branch is reached with the
pyspice dependency absent, the ModuleNotFoundError is raised with an
empty trace, before any other side effect of the branch. -/
theorem make_envelope_spice_guards (ext : EnvExternal) (m : String)
    (signal : Signal) :
    (make_envelope ext spiceStr signal =
      (Except.error
        (if ext.pyspice_available then EnvError.valueError spiceUnqualifiedMsg
         else EnvError.moduleNotFoundError ext.modulenotfound_msg), [])) ∧
    (containsSub hilbertStr m = false → containsSub analyticStr m = false →
      containsSub spiceStr m = true → ext.pyspice_available = false →
      make_envelope ext m signal =
        (Except.error (EnvError.moduleNotFoundError ext.modulenotfound_msg),
         [])) := by
  constructor
  · rw [make_envelope, if_neg (by decide), if_neg (by decide),
      if_pos (by decide)]
    cases havail : ext.pyspice_available with
    | false => simp
    | true => simp
  · intro h1 h2 h3 h4
    rw [make_envelope, if_neg (by simp [h1]), if_neg (by simp [h2]),
      if_pos h3, if_pos (by simp [h4])]

/-- Witness for make_envelope_spice_guards: with pyspice absent, both the
exact spice string and a qualified spice string stop at the dependency
check with no spice side effects. -/
theorem make_envelope_spice_guards_witness :
    make_envelope trivialExt spiceStr sampleSig =
      (Except.error
        (EnvError.moduleNotFoundError trivialExt.modulenotfound_msg), []) ∧
    make_envelope trivialExt basicSpiceStr sampleSig =
      (Except.error
        (EnvError.moduleNotFoundError trivialExt.modulenotfound_msg), []) := by
  constructor
  · have h := (make_envelope_spice_guards trivialExt spiceStr sampleSig).1
    simpa using h
  · exact (make_envelope_spice_guards trivialExt basicSpiceStr sampleSig).2
      (by decide) (by decide) (by decide) rfl

/-- Analytic method string with an unsupported qualifier. -/
def analyticLogStr : String := "analytic log"

/-- Counterexample to C9 as stated: with envelope_method set to the string
analytic log, make_envelope raises the analytic-qualifier configuration
error whose message is a fixed string that does not contain the offending
configuration value. -/
theorem make_envelope_error_message_cex :
    make_envelope trivialExt analyticLogStr sampleSig =
      (Except.error (EnvError.valueError onlyBasicMsg), []) ∧
    containsSub analyticLogStr onlyBasicMsg = false := ⟨rfl, by decide⟩

/-- C9, amended: only the unmatched-spice-circuit and unknown-method
errors name the offending envelope_method string in their message; the
analytic-unsupported-qualifier error and the unqualified-spice error
carry fixed messages independent of the configured value, and the
missing-dependency error carries the external module message. -/
theorem make_envelope_error_messages (ext : EnvExternal) (m : String)
    (signal : Signal) :
    (containsSub hilbertStr m = false → containsSub analyticStr m = true →
      containsSub basicStr m = false → m ≠ analyticStr →
      make_envelope ext m signal =
        (Except.error (EnvError.valueError onlyBasicMsg), [])) ∧
    (containsSub hilbertStr m = false → containsSub analyticStr m = false →
      containsSub spiceStr m = true → ext.pyspice_available = false →
      make_envelope ext m signal =
        (Except.error (EnvError.moduleNotFoundError ext.modulenotfound_msg),
         [])) ∧
    (ext.pyspice_available = true →
      make_envelope ext spiceStr signal =
        (Except.error (EnvError.valueError spiceUnqualifiedMsg), [])) ∧
    (containsSub hilbertStr m = false → containsSub analyticStr m = false →
      containsSub spiceStr m = true → ext.pyspice_available = true →
      m ≠ spiceStr → matchCircuit ext.spice_circuit_keys m = none →
      make_envelope ext m signal =
        (Except.error (EnvError.valueError (circuitMsg m)),
         [SpiceEffect.builtSpiceInput]) ∧
      containsSub m (circuitMsg m) = true) ∧
    (containsSub hilbertStr m = false → containsSub analyticStr m = false →
      containsSub spiceStr m = false →
      make_envelope ext m signal =
        (Except.error (EnvError.valueError (noMatchMsg m)), []) ∧
      containsSub m (noMatchMsg m) = true) := by
  refine ⟨?_, ?_, ?_, ?_, ?_⟩
  · intro h1 h2 h3 h4
    rw [make_envelope, if_neg (by simp [h1]), if_pos h2,
      if_neg (by simp [h3, h4])]
  · intro h1 h2 h3 h4
    rw [make_envelope, if_neg (by simp [h1]), if_neg (by simp [h2]),
      if_pos h3, if_pos (by simp [h4])]
  · intro h4
    rw [make_envelope, if_neg (by decide), if_neg (by decide),
      if_pos (by decide), if_neg (by simp [h4]), if_pos (by simp)]
  · intro h1 h2 h3 h4 h5 h6
    constructor
    · rw [make_envelope, if_neg (by simp [h1]), if_neg (by simp [h2]),
        if_pos h3, if_neg (by simp [h4]), if_neg (by simp [h5]), h6]
    · rw [circuitMsg]
      exact containsSub_append _ m _
  · intro h1 h2 h3
    constructor
    · rw [make_envelope, if_neg (by simp [h1]), if_neg (by simp [h2]),
        if_neg (by simp [h3])]
    · rw [noMatchMsg]
      exact containsSub_append _ m _

/-- External capabilities with the pyspice dependency present. -/
def spiceOnExt : EnvExternal := { trivialExt with pyspice_available := true }

/-- Spice-family method string matching no circuit key and no alias. -/
def spiceMysteryStr : String := "spice mystery"

/-- Method string outside all three envelope families. -/
def otherStr : String := "other"

/-- Witness for make_envelope_error_messages: each of the five error
branches evaluated at a concrete configuration. -/
theorem make_envelope_error_messages_witness :
    make_envelope trivialExt analyticLogStr sampleSig =
      (Except.error (EnvError.valueError onlyBasicMsg), []) ∧
    make_envelope trivialExt basicSpiceStr sampleSig =
      (Except.error
        (EnvError.moduleNotFoundError trivialExt.modulenotfound_msg), []) ∧
    make_envelope spiceOnExt spiceStr sampleSig =
      (Except.error (EnvError.valueError spiceUnqualifiedMsg), []) ∧
    (make_envelope spiceOnExt spiceMysteryStr sampleSig =
      (Except.error (EnvError.valueError (circuitMsg spiceMysteryStr)),
       [SpiceEffect.builtSpiceInput]) ∧
     containsSub spiceMysteryStr (circuitMsg spiceMysteryStr) = true) ∧
    (make_envelope trivialExt otherStr sampleSig =
      (Except.error (EnvError.valueError (noMatchMsg otherStr)), []) ∧
     containsSub otherStr (noMatchMsg otherStr) = true) := by
  refine ⟨?_, ?_, ?_, ?_, ?_⟩
  · exact (make_envelope_error_messages trivialExt analyticLogStr sampleSig).1
      (by decide) (by decide) (by decide) (by decide)
  · exact (make_envelope_error_messages trivialExt basicSpiceStr
      sampleSig).2.1 (by decide) (by decide) (by decide) rfl
  · exact (make_envelope_error_messages spiceOnExt spiceStr sampleSig).2.2.1
      rfl
  · exact (make_envelope_error_messages spiceOnExt spiceMysteryStr
      sampleSig).2.2.2.1 (by decide) (by decide) (by decide) rfl (by decide)
      (by decide)
  · exact (make_envelope_error_messages trivialExt otherStr
      sampleSig).2.2.2.2 (by decide) (by decide) (by decide)

/-- Counterexample to C8 as stated: front_end on a voltage-tagged input
with the hilbert envelope method succeeds but returns a waveform tagged
undefined, not with the original voltage tag: the amplified copy handed
to make_envelope is constructed without a value type, and the hilbert
branch propagates the copy tag. -/
theorem front_end_value_type_cex :
    (front_end trivialExt hilbertStr 1 1 sampleSig).1 =
      Except.ok ⟨[0], amplified_values 1 1 [1], ValueType.undefined⟩ ∧
    ValueType.undefined ≠ ValueType.voltage := ⟨rfl, by decide⟩

/-- C8, amended: whenever front_end succeeds, the output waveform has the
same time axis as the input signal, but its value-type tag is the
undefined default of the amplified copy rather than the original tag of
the input (under the spec-modelled assumption that the external basic
envelope model preserves the times and tag of the signal it is given). -/
theorem front_end_times_and_default_tag (ext : EnvExternal) (m : String)
    (g c : ℝ) (signal out : Signal) (eff : List SpiceEffect)
    (hb_times : ∀ s, (ext.basic_envelope_model s).times = s.times)
    (hb_tag : ∀ s, (ext.basic_envelope_model s).value_type = s.value_type)
    (h : front_end ext m g c signal = (Except.ok out, eff)) :
    out.times = signal.times ∧ out.value_type = ValueType.undefined := by
  rw [front_end, make_envelope] at h
  split_ifs at h
  · simp only [Prod.mk.injEq, Except.ok.injEq] at h
    rw [← h.1]
    exact ⟨rfl, rfl⟩
  · simp only [Prod.mk.injEq, Except.ok.injEq] at h
    rw [← h.1]
    exact ⟨hb_times _, hb_tag _⟩
  · simp at h
  · simp at h
  · simp at h
  · split at h
    · simp at h
    · simp only [Prod.mk.injEq, Except.ok.injEq] at h
      rw [← h.1]
      exact ⟨rfl, rfl⟩
  · simp at h

/-- Witness for front_end_times_and_default_tag at the concrete hilbert
configuration: output times equal the input times and the output tag is
undefined. -/
theorem front_end_times_and_default_tag_witness :
    (Signal.mk [0] (amplified_values 1 1 [1]) ValueType.undefined).times =
      sampleSig.times ∧
    (Signal.mk [0] (amplified_values 1 1 [1])
      ValueType.undefined).value_type = ValueType.undefined :=
  front_end_times_and_default_tag trivialExt hilbertStr 1 1 sampleSig
    ⟨[0], amplified_values 1 1 [1], ValueType.undefined⟩ []
    (fun _ => rfl) (fun _ => rfl) rfl

/-!  Waveform cache: the all_waveforms property of IREXAntennaSystem
(antenna.py lines 181-193).

Python source:
    @property
    def all_waveforms(self):
        while len(self._all_waveforms)<len(self.antenna.signals):
            signal = self.antenna.signals[len(self._all_waveforms)]
            ...
            self._all_waveforms.append(long_waveform.with_times(t))
        return self._all_waveforms

The loop body processes the raw signal at index len(cache) through the
lead-in extension, noise synthesis, front_end and crop; with_times and
make_noise live in pyrex.signals and pyrex.antenna (not under src), so
the per-signal composite is a parameter proc quantified over in the
theorems.  The loop structure, indexing and append order are from the
source. -/

/-- Cache-relevant state of an IREXAntennaSystem: the raw signal list of
the underlying antenna and the processed-waveform cache
self._all_waveforms. -/
structure CacheState where
  signals : List Signal
  all_waveforms : List Signal

/-- While loop of the all_waveforms property: process the raw signal at
index len(cache) and append, until the cache catches up with the raw
list.  Returns the new cache and the number of signals processed.  Fuel
bounds the iterations; all_waveforms_access passes the raw-list length,
which always suffices. -/
def waveformLoop (proc : Signal → Signal) (raw : List Signal) :
    ℕ → List Signal → List Signal × ℕ
  | 0, cache => (cache, 0)
  | fuel + 1, cache =>
      if h : cache.length < raw.length then
        ((waveformLoop proc raw fuel
            (cache ++ [proc (raw.get ⟨cache.length, h⟩)])).1,
         (waveformLoop proc raw fuel
            (cache ++ [proc (raw.get ⟨cache.length, h⟩)])).2 + 1)
      else (cache, 0)

/-- One access of the all_waveforms property: run the catch-up loop,
store the result, and return the updated state together with the
returned waveform list and the number of newly processed signals. -/
def all_waveforms_access (proc : Signal → Signal) (st : CacheState) :
    CacheState × List Signal × ℕ :=
  (⟨st.signals,
    (waveformLoop proc st.signals st.signals.length st.all_waveforms).1⟩,
   (waveformLoop proc st.signals st.signals.length st.all_waveforms).1,
   (waveformLoop proc st.signals st.signals.length st.all_waveforms).2)

/-- Antenna.receive bookkeeping relevant to the cache: the received
signal is appended to the raw signal list. -/
def receiveSignal (st : CacheState) (s : Signal) : CacheState :=
  ⟨st.signals ++ [s], st.all_waveforms⟩

/-- Lifetime operations touching the cache: a receive call or an
all_waveforms access. -/
inductive AntOp where
  | receive (s : Signal)
  | access

/-- Apply one lifetime operation to the cache state. -/
def stepOp (proc : Signal → Signal) (st : CacheState) : AntOp → CacheState
  | AntOp.receive s => receiveSignal st s
  | AntOp.access => (all_waveforms_access proc st).1

/-- Run a sequence of lifetime operations from a fresh antenna system
(no raw signals, empty cache). -/
def runOps (proc : Signal → Signal) (ops : List AntOp) : CacheState :=
  ops.foldl (stepOp proc) ⟨[], []⟩

theorem waveformLoop_stuck (proc : Signal → Signal) (raw : List Signal)
    (fuel : ℕ) (cache : List Signal) (h : ¬ cache.length < raw.length) :
    waveformLoop proc raw fuel cache = (cache, 0) := by
  cases fuel <;> simp [waveformLoop, h]

theorem waveformLoop_closed (proc : Signal → Signal) (raw : List Signal) :
    ∀ fuel cache, cache.length ≤ raw.length →
      raw.length - cache.length ≤ fuel →
      waveformLoop proc raw fuel cache =
        (cache ++ (raw.drop cache.length).map proc,
         raw.length - cache.length) := by
  intro fuel
  induction fuel with
  | zero =>
      intro cache h1 h2
      have heq : cache.length = raw.length := by omega
      rw [waveformLoop_stuck proc raw 0 cache (by omega)]
      rw [heq, List.drop_length]
      simp [heq]
  | succ fuel ih =>
      intro cache h1 h2
      by_cases h : cache.length < raw.length
      · rw [waveformLoop, dif_pos h]
        have hlen : (cache ++ [proc (raw.get ⟨cache.length, h⟩)]).length =
            cache.length + 1 := by simp
        rw [ih (cache ++ [proc (raw.get ⟨cache.length, h⟩)])
          (by rw [hlen]; omega) (by rw [hlen]; omega), hlen]
        have hdrop : raw.drop cache.length =
            raw.get ⟨cache.length, h⟩ :: raw.drop (cache.length + 1) := by
          rw [List.drop_eq_getElem_cons h]
          simp
        rw [hdrop]
        have hc : raw.length - (cache.length + 1) + 1 =
            raw.length - cache.length := by omega
        rw [hc]
        simp
        have hx : cache.length < (raw.map proc).length := by
          simpa using h
        conv_rhs => rw [List.drop_eq_getElem_cons hx]
        simp
      · rw [waveformLoop_stuck proc raw _ cache h]
        have heq : cache.length = raw.length := by omega
        rw [heq, List.drop_length]
        simp [heq]

/-- The cache discipline invariant: the cache is the image under the
processing composite of a prefix of the raw signal list, taken in
arrival order, and is never longer than the raw list. -/
def cacheInv (proc : Signal → Signal) (st : CacheState) : Prop :=
  st.all_waveforms = (st.signals.take st.all_waveforms.length).map proc ∧
  st.all_waveforms.length ≤ st.signals.length

theorem access_result (proc : Signal → Signal) (st : CacheState)
    (h : st.all_waveforms.length ≤ st.signals.length) :
    all_waveforms_access proc st =
      (⟨st.signals,
        st.all_waveforms ++
          (st.signals.drop st.all_waveforms.length).map proc⟩,
       st.all_waveforms ++
         (st.signals.drop st.all_waveforms.length).map proc,
       st.signals.length - st.all_waveforms.length) := by
  rw [all_waveforms_access,
    waveformLoop_closed proc st.signals st.signals.length st.all_waveforms h
      (by omega)]

theorem cacheInv_receive (proc : Signal → Signal) (st : CacheState)
    (hinv : cacheInv proc st) (s : Signal) :
    cacheInv proc (receiveSignal st s) := by
  obtain ⟨hpre, hlen⟩ := hinv
  constructor
  · rw [receiveSignal]
    simpa [List.take_append_of_le_length hlen] using hpre
  · rw [receiveSignal]
    simp only [List.length_append, List.length_cons, List.length_nil]
    omega

theorem cacheInv_access (proc : Signal → Signal) (st : CacheState)
    (hinv : cacheInv proc st) :
    cacheInv proc (all_waveforms_access proc st).1 := by
  obtain ⟨hpre, hlen⟩ := hinv
  rw [access_result proc st hlen]
  refine ⟨?_, ?_⟩
  · simp only
    set k := st.all_waveforms.length with hk
    have hcache : st.all_waveforms ++ (st.signals.drop k).map proc =
        st.signals.map proc := by
      rw [hpre, ← List.map_append, List.take_append_drop]
    rw [hcache]
    simp
  · simp
    omega

theorem cacheInv_runOps (proc : Signal → Signal) (ops : List AntOp) :
    cacheInv proc (runOps proc ops) := by
  rw [runOps]
  have hbase : cacheInv proc ⟨[], []⟩ := by constructor <;> simp
  generalize hst : (⟨[], []⟩ : CacheState) = st
  rw [hst] at hbase
  clear hst
  induction ops generalizing st with
  | nil => simpa using hbase
  | cons op rest ih =>
      rw [List.foldl_cons]
      apply ih
      cases op with
      | receive s => exact cacheInv_receive proc st hbase s
      | access => exact cacheInv_access proc st hbase

theorem access_stuck (proc : Signal → Signal) (st : CacheState)
    (h : ¬ st.all_waveforms.length < st.signals.length) :
    all_waveforms_access proc st = (st, st.all_waveforms, 0) := by
  rw [all_waveforms_access, waveformLoop_stuck proc st.signals
    st.signals.length st.all_waveforms h]

theorem access_saturates (proc : Signal → Signal) (st : CacheState) :
    ¬ (all_waveforms_access proc st).1.all_waveforms.length <
      (all_waveforms_access proc st).1.signals.length := by
  by_cases h : st.all_waveforms.length ≤ st.signals.length
  · rw [access_result proc st h]
    simp
    omega
  · rw [access_stuck proc st (by omega)]
    simp
    omega

theorem runOps_receives (proc : Signal → Signal) (sigs : List Signal) :
    ∀ st : CacheState,
      (sigs.map AntOp.receive).foldl (stepOp proc) st =
        ⟨st.signals ++ sigs, st.all_waveforms⟩ := by
  induction sigs with
  | nil => intro st; simp
  | cons s rest ih =>
      intro st
      rw [List.map_cons, List.foldl_cons]
      rw [ih]
      simp [stepOp, receiveSignal]

/-- C7: the processed-waveform cache discipline.  First, at every point
in the lifetime of a system driven from a fresh state by any sequence of
receive calls and all_waveforms accesses, the cache is the processing
image of a prefix of the raw signal list in arrival order and never
exceeds it in length.  Second, after N receive calls followed by one
all_waveforms access the cache holds exactly N waveforms.  Third, an
immediately repeated access returns the identical stored list, leaves
the state unchanged, and processes zero signals (no recomputation). -/
theorem waveform_cache_invariant (proc : Signal → Signal) :
    (∀ ops : List AntOp,
      (runOps proc ops).all_waveforms =
        ((runOps proc ops).signals.take
          (runOps proc ops).all_waveforms.length).map proc ∧
      (runOps proc ops).all_waveforms.length ≤
        (runOps proc ops).signals.length) ∧
    (∀ sigs : List Signal,
      (runOps proc (sigs.map AntOp.receive ++
        [AntOp.access])).all_waveforms.length = sigs.length) ∧
    (∀ st : CacheState,
      all_waveforms_access proc ((all_waveforms_access proc st).1) =
        ((all_waveforms_access proc st).1,
         ((all_waveforms_access proc st).1).all_waveforms, 0)) := by
  refine ⟨fun ops => cacheInv_runOps proc ops, ?_, ?_⟩
  · intro sigs
    rw [runOps, List.foldl_append, runOps_receives proc sigs ⟨[], []⟩]
    simp only [List.foldl_cons, List.foldl_nil, stepOp]
    rw [access_result proc ⟨[] ++ sigs, []⟩ (by simp)]
    simp
  · intro st
    exact access_stuck proc _ (access_saturates proc st)

/-!  Geometry: pyrex.internal_functions.normalize and the per-path body
of EventKernel.event (kernel.py lines 27-52). -/

/-- Three-component real vector, the embedding of the numpy length-3
arrays used by the kernel. -/
abbrev V3 := ℝ × ℝ × ℝ

/-- Euclidean dot product of two 3-vectors (numpy vdot). -/
def dot3 (a b : V3) : ℝ := a.1 * b.1 + a.2.1 * b.2.1 + a.2.2 * b.2.2

/-- Scalar multiplication of a 3-vector. -/
def smul3 (c : ℝ) (a : V3) : V3 := (c * a.1, c * a.2.1, c * a.2.2)

/-- Componentwise difference of 3-vectors. -/
def sub3 (a b : V3) : V3 := (a.1 - b.1, a.2.1 - b.2.1, a.2.2 - b.2.2)

/-- Euclidean magnitude (numpy linalg.norm) of a 3-vector. -/
noncomputable def norm3 (v : V3) : ℝ := Real.sqrt (dot3 v v)

/-- pyrex.internal_functions.normalize (internal_functions.py lines
5-12): return the vector unchanged when its magnitude is zero, otherwise
the vector divided by its magnitude. -/
noncomputable def normalize (v : V3) : V3 :=
  if norm3 v = 0 then v else smul3 (1 / norm3 v) v

/-- Polarization computed by EventKernel.event (kernel.py line 35):
normalize(vdot(k, direction) * k - direction) for the received-ray
direction k and the shower direction. -/
noncomputable def epol (k direction : V3) : V3 :=
  normalize (sub3 (smul3 (dot3 k direction) k) direction)

theorem dot3_self_nonneg (v : V3) : 0 ≤ dot3 v v := by
  obtain ⟨a, b, c⟩ := v
  simp only [dot3]
  nlinarith [sq_nonneg a, sq_nonneg b, sq_nonneg c]

theorem dot3_self_of_unit {v : V3} (hv : norm3 v = 1) : dot3 v v = 1 := by
  have h := Real.sq_sqrt (dot3_self_nonneg v)
  rw [norm3] at hv
  rw [hv] at h
  simpa using h.symm

/-- C4: for unit received-ray direction k and unit shower direction d,
the polarization vector normalize((k . d) k - d) is the zero vector when
k equals d, and otherwise has zero dot product with k. -/
theorem epol_zero_or_orthogonal (k d : V3) (hk : norm3 k = 1)
    (hd : norm3 d = 1) :
    (k = d → epol k d = ((0 : ℝ), (0 : ℝ), (0 : ℝ))) ∧
    (k ≠ d → dot3 (epol k d) k = 0) := by
  have hkk : dot3 k k = 1 := dot3_self_of_unit hk
  constructor
  · intro hkd
    subst hkd
    have hw : sub3 (smul3 (dot3 k k) k) k = ((0 : ℝ), (0 : ℝ), (0 : ℝ)) := by
      rw [hkk]
      obtain ⟨a, b, c⟩ := k
      simp [sub3, smul3]
    rw [epol, hw, normalize]
    rw [if_pos (by simp [norm3, dot3, Real.sqrt_zero])]
  · intro _
    have hwk : dot3 (sub3 (smul3 (dot3 k d) k) d) k = 0 := by
      obtain ⟨a, b, c⟩ := k
      obtain ⟨x, y, z⟩ := d
      simp only [dot3, sub3, smul3] at hkk ⊢
      linear_combination (x * a + y * b + z * c) * hkk
    rw [epol, normalize]
    by_cases hz : norm3 (sub3 (smul3 (dot3 k d) k) d) = 0
    · rw [if_pos hz]
      exact hwk
    · rw [if_neg hz]
      have hs : dot3 (smul3 (1 / norm3 (sub3 (smul3 (dot3 k d) k) d))
          (sub3 (smul3 (dot3 k d) k) d)) k =
          (1 / norm3 (sub3 (smul3 (dot3 k d) k) d)) *
            dot3 (sub3 (smul3 (dot3 k d) k) d) k := by
        obtain ⟨a, b, c⟩ := k
        obtain ⟨x, y, z⟩ := d
        simp only [dot3, sub3, smul3]
        ring
      rw [hs, hwk, mul_zero]

/-- Witness for epol_zero_or_orthogonal at the unit vectors (1,0,0) and
(0,1,0). -/
theorem epol_zero_or_orthogonal_witness :
    ((((1 : ℝ), (0 : ℝ), (0 : ℝ)) : V3) = ((0 : ℝ), (1 : ℝ), (0 : ℝ)) →
      epol ((1 : ℝ), (0 : ℝ), (0 : ℝ)) ((0 : ℝ), (1 : ℝ), (0 : ℝ)) =
        ((0 : ℝ), (0 : ℝ), (0 : ℝ))) ∧
    ((((1 : ℝ), (0 : ℝ), (0 : ℝ)) : V3) ≠ ((0 : ℝ), (1 : ℝ), (0 : ℝ)) →
      dot3 (epol ((1 : ℝ), (0 : ℝ), (0 : ℝ)) ((0 : ℝ), (1 : ℝ), (0 : ℝ)))
        ((1 : ℝ), (0 : ℝ), (0 : ℝ)) = 0) :=
  epol_zero_or_orthogonal ((1 : ℝ), (0 : ℝ), (0 : ℝ))
    ((0 : ℝ), (1 : ℝ), (0 : ℝ))
    (by simp [norm3, dot3])
    (by simp [norm3, dot3])

/-- Ray path between the vertex and an antenna, as exposed by the
external PathFinder and ReflectedPathFinder classes consumed by
kernel.py: existence flag, emission and reception directions and path
length (the Python attribute named exists is path_exists here). -/
structure RayPath where
  path_exists : Bool
  emitted_ray : V3
  received_ray : V3
  path_length : ℝ

/-- Observable per-path actions of EventKernel.event, in program order:
construction of the Askaryan pulse at angle theta, propagation along the
path, and the antenna receive call carrying the polarization. -/
inductive PathEffect where
  | builtPulse (theta : ℝ)
  | propagated
  | received (polarization : V3)

/-- Per-path body of the loop in EventKernel.event (kernel.py lines
27-52): a non-existent path is skipped; otherwise the polarization and
the emission angle psi = arccos(direction . emitted_ray) are computed,
and when psi exceeds pi/2 the path is skipped entirely; otherwise the
pulse is built, propagated and delivered by the antenna receive call,
which appends to the raw-signal queue.  The queue entries record the
delivered polarization. -/
noncomputable def processPath (direction : V3) (path : RayPath)
    (signals : List V3) : List V3 × List PathEffect :=
  if path.path_exists = false then (signals, [])
  else
    if Real.arccos (dot3 direction path.emitted_ray) > Real.pi / 2 then
      (signals, [])
    else
      (signals ++ [epol path.received_ray direction],
       [PathEffect.builtPulse (Real.arccos (dot3 direction path.emitted_ray)),
        PathEffect.propagated,
        PathEffect.received (epol path.received_ray direction)])

/-- C5: an existing ray path whose emission angle strictly exceeds pi/2
is skipped entirely by EventKernel.event: the antenna raw-signal queue
is returned unchanged and no pulse construction, propagation or receive
effect occurs for that path. -/
theorem event_skips_wide_angle_paths (direction : V3) (path : RayPath)
    (signals : List V3) (hex : path.path_exists = true)
    (hangle : Real.arccos (dot3 direction path.emitted_ray) > Real.pi / 2) :
    processPath direction path signals = (signals, []) := by
  rw [processPath, if_neg (by simp [hex]), if_pos hangle]

/-- Path pointing opposite to the witness shower direction: emission
angle arccos(-1) = pi. -/
def backwardPath : RayPath :=
  ⟨true, ((-1 : ℝ), (0 : ℝ), (0 : ℝ)), ((0 : ℝ), (0 : ℝ), (1 : ℝ)), 5⟩

/-- Witness for event_skips_wide_angle_paths: a path emitted exactly
opposite to the shower direction (angle pi) appends nothing to the
raw-signal queue and produces no effects. -/
theorem event_skips_wide_angle_paths_witness :
    processPath ((1 : ℝ), (0 : ℝ), (0 : ℝ)) backwardPath [] = ([], []) := by
  apply event_skips_wide_angle_paths ((1 : ℝ), (0 : ℝ), (0 : ℝ))
    backwardPath [] rfl
  have hdot : dot3 ((1 : ℝ), (0 : ℝ), (0 : ℝ)) backwardPath.emitted_ray =
      -1 := by
    norm_num [dot3, backwardPath]
  rw [hdot, Real.arccos_neg_one]
  linarith [Real.pi_pos]

/-!  Hilbert envelope and the front-end clipping claim.

The envelope property of pyrex.signals.Signal is not under src; the spec
describes the hilbert method as an analytic-signal (Hilbert-transform
based) magnitude extraction, which is modelled here as the pointwise
magnitude of the discrete analytic signal: the inverse DFT of the
spectrum with negative frequencies zeroed, positive frequencies doubled
and the DC and Nyquist bins kept (the scipy.signal.hilbert weights). -/

/-- Primitive DFT root exp(-2 pi i / N) for sample count N. -/
noncomputable def dftRoot (N : ℕ) : ℂ :=
  Complex.exp (-(2 * Real.pi * Complex.I) / N)

/-- Discrete Fourier transform bin k of a complex sample list. -/
noncomputable def dft (x : List ℂ) (k : ℕ) : ℂ :=
  ∑ n ∈ Finset.range x.length, x.getD n 0 * dftRoot x.length ^ (k * n)

/-- Analytic-signal spectral weights of the Hilbert transform: keep the
DC bin, double the positive-frequency bins, keep the Nyquist bin for
even length, zero the negative-frequency bins. -/
def hilbertWeight (N k : ℕ) : ℂ :=
  if k = 0 then 1
  else if 2 * k < N then 2
  else if 2 * k = N then 1
  else 0

/-- Sample n of the discrete analytic signal: inverse DFT of the
weighted spectrum. -/
noncomputable def analyticSignal (x : List ℂ) (n : ℕ) : ℂ :=
  (1 / (x.length : ℂ)) *
    ∑ k ∈ Finset.range x.length,
      hilbertWeight x.length k * dft x k * (dftRoot x.length)⁻¹ ^ (k * n)

/-- Modelled from the spec: the envelope property of pyrex.signals.Signal
(pyrex.signals is not under src), an analytic-signal magnitude
extraction: the pointwise absolute value of the discrete analytic
signal. -/
noncomputable def hilbertEnvelope (values : List ℝ) : List ℝ :=
  (List.range values.length).map
    (fun n => Complex.abs (analyticSignal (values.map Complex.ofReal) n))

/-- External capabilities with the Signal envelope property bound to the
spec-modelled Hilbert magnitude extraction. -/
noncomputable def hilbertExt : EnvExternal :=
  { trivialExt with envelope := hilbertEnvelope }

theorem dftRoot_four : dftRoot 4 = -Complex.I := by
  rw [dftRoot]
  have harg : -(2 * (Real.pi : ℂ) * Complex.I) / ((4 : ℕ) : ℂ) =
      ((-(Real.pi / 2) : ℝ) : ℂ) * Complex.I := by
    push_cast
    ring
  rw [harg, Complex.exp_mul_I]
  rw [← Complex.ofReal_cos, ← Complex.ofReal_sin]
  rw [Real.cos_neg, Real.sin_neg, Real.cos_pi_div_two, Real.sin_pi_div_two]
  simp

theorem analyticSignal_x4_zero :
    analyticSignal [(1 : ℂ), 1, -1, -1] 0 = 1 - Complex.I := by
  rw [analyticSignal]
  simp only [List.length_cons, List.length_nil]
  norm_num [Finset.sum_range_succ, hilbertWeight, dft, List.getD,
    dftRoot_four, pow_succ]
  ring

theorem abs_one_sub_I : Complex.abs (1 - Complex.I) = Real.sqrt 2 := by
  rw [Complex.abs_apply, Complex.normSq_apply]
  norm_num

theorem hilbertEnvelope_x4_head :
    (hilbertEnvelope [(1 : ℝ), 1, -1, -1]).getD 0 0 = Real.sqrt 2 := by
  rw [hilbertEnvelope]
  simp only [List.length_cons, List.length_nil]
  have hmap : [(1 : ℝ), 1, -1, -1].map Complex.ofReal =
      [(1 : ℂ), 1, -1, -1] := by
    simp
  norm_num [List.range_succ, hmap, analyticSignal_x4_zero, abs_one_sub_I]

theorem amplified_x4 :
    amplified_values 1 1 [(1 : ℝ), 1, -1, -1] = [(1 : ℝ), 1, -1, -1] := by
  norm_num [amplified_values, clip, max_def, min_def]

/-- Counterexample to C3 as stated: with amplification gain 1 and clip
bound 1, the hilbert front end applied to the voltage waveform
1, 1, -1, -1 (already inside [-1, 1], unchanged by clipping) produces a
first output sample equal to sqrt 2, which lies outside [-c, c] = [-1, 1]:
the envelope stage after clipping is not bounded by the clip bound. -/
theorem front_end_output_exceeds_clip_cex :
    (front_end hilbertExt hilbertStr 1 1
      ⟨[0, 1, 2, 3], [(1 : ℝ), 1, -1, -1], ValueType.voltage⟩).1 =
      Except.ok ⟨[0, 1, 2, 3], hilbertEnvelope [(1 : ℝ), 1, -1, -1],
        ValueType.undefined⟩ ∧
    (hilbertEnvelope [(1 : ℝ), 1, -1, -1]).getD 0 0 = Real.sqrt 2 ∧
    ¬ (hilbertEnvelope [(1 : ℝ), 1, -1, -1]).getD 0 0 ≤ 1 := by
  refine ⟨?_, hilbertEnvelope_x4_head, ?_⟩
  · rw [front_end, make_envelope, if_pos (by decide)]
    simp only [hilbertExt, trivialExt]
    rw [amplified_x4]
  · rw [hilbertEnvelope_x4_head]
    have h1 : (1 : ℝ) < Real.sqrt 2 := by
      have h := Real.sqrt_lt_sqrt (by norm_num : (0 : ℝ) ≤ 1)
        (by norm_num : (1 : ℝ) < 2)
      simpa using h
    linarith

/-- C3, amended: every sample of the amplified-and-clipped intermediate
waveform that front_end hands to the envelope stage lies in [-c, c]
whenever the clip bound c is nonnegative; the envelope stage itself is
not bounded by the clip bound (its output can reach sqrt 2 times the
bound on a clipped square wave). -/
theorem amplified_values_bounded (g c : ℝ) (hc : 0 ≤ c)
    (values : List ℝ) :
    ∀ x ∈ amplified_values g c values, -c ≤ x ∧ x ≤ c := by
  intro x hx
  rw [amplified_values, List.mem_map] at hx
  obtain ⟨v, _, rfl⟩ := hx
  constructor
  · exact le_min (by linarith) (le_max_right (v * g) (-c))
  · exact min_le_left c _

/-- Witness for amplified_values_bounded: gain 2 and clip bound 1 on the
sample 5 give a clipped value inside [-1, 1]. -/
theorem amplified_values_bounded_witness :
    -1 ≤ clip (-1) 1 (5 * 2) ∧ clip (-1) 1 (5 * 2) ≤ 1 :=
  amplified_values_bounded 2 1 (by norm_num) [5, -3]
    (clip (-1) 1 (5 * 2)) (by simp [amplified_values])

end Pyrex
